import Mathlib

/-!
Verification of the conversation session/persistence/reconciliation core of
the ShikAI terminal assistant.

The TypeScript source is shallowly embedded: pure functions become Lean
functions, filesystem-touching functions take an explicit filesystem model
and an oracle for I/O failures, and the stateful reconciler is expressed by
explicit state passing (history, knownIds) instead of in-place mutation.
-/

/-- Message roles used by the session core (CoreMessage.role). -/
inductive Role where
  | system
  | user
  | assistant
  | tool
deriving DecidableEq, Repr

/-- Shallow embedding of a CoreMessage as the session core uses it: a role, a
textual content, an optional id, and the presence of the
providerOptions.anthropic.cacheControl marker (the cache hint). -/
structure Message where
  role : Role
  content : String
  id : Option String
  cacheHint : Bool
deriving DecidableEq, Repr

/-- In JavaScript, `m.id` is truthy exactly when it is present and a non-empty
string; this models the `m.id` guard of appendFinalMessages. -/
def hasTruthyId (m : Message) : Bool :=
  match m.id with
  | some s => s != ""
  | none => false

/-- Step 1 of appendFinalMessages: when the cache flag is set, delete the
cacheControl marker from every assistant message already in the history
(messages of other roles, the system message included, are left untouched). -/
def stripAssistantHints (history : List Message) : List Message :=
  history.map fun m =>
    if m.role = Role.assistant then { m with cacheHint := false } else m

/-- Step 2 of appendFinalMessages: walk the incoming batch in order; a message
whose role is assistant or tool and whose id is truthy and not yet known is
recorded in knownIds and appended to the history, receiving a fresh cache
hint when the cache flag is set, it is the last element of the batch, and its
role is assistant. All other messages are dropped. The remaining batch being
empty encodes the source's test i === finalMessages.length - 1. -/
def appendFinalMessagesLoop (cache : Bool) :
    List Message → List Message × List String → List Message × List String
  | [], acc => acc
  | m :: rest, (hist, known) =>
    match m.id with
    | some mid =>
      if (m.role = Role.assistant ∨ m.role = Role.tool) ∧ mid ≠ "" then
        if mid ∈ known then
          appendFinalMessagesLoop cache rest (hist, known)
        else
          let m' :=
            if cache ∧ rest.isEmpty ∧ m.role = Role.assistant then
              { m with cacheHint := true }
            else m
          appendFinalMessagesLoop cache rest (hist ++ [m'], mid :: known)
      else
        appendFinalMessagesLoop cache rest (hist, known)
    | none => appendFinalMessagesLoop cache rest (hist, known)

/-- The history reconciler appendFinalMessages, with the in-place mutation of
(history, knownIds) turned into explicit state passing. -/
def appendFinalMessages (history finalMessages : List Message)
    (knownIds : List String) (cache : Bool) : List Message × List String :=
  let h := if cache then stripAssistantHints history else history
  appendFinalMessagesLoop cache finalMessages (h, knownIds)

/-- A sequence of appendFinalMessages calls with the cache flag set, one call
per incoming batch, threading history and knownIds through. -/
def mergeAll (batches : List (List Message)) (history : List Message)
    (knownIds : List String) : List Message × List String :=
  batches.foldl (fun acc b => appendFinalMessages acc.1 b acc.2 true)
    (history, knownIds)

/-- The title scheduler's shouldUpdateTitle: in the source, a chain of
JavaScript truthiness checks; !!currentChatTitle holds exactly when the title
string is non-empty. For titleInterval = 0 the source computes NaN === 0,
which is false, and Nat.mod gives messageCount % 0 = messageCount, which
combined with 0 < messageCount is also never 0, so the embedding agrees. -/
def shouldUpdateTitle (messageCount titleInterval : Nat)
    (isFirstUserInput : Bool) (currentChatTitle : String) : Bool :=
  decide (0 < messageCount) && decide (messageCount % titleInterval = 0) &&
    !isFirstUserInput && (currentChatTitle != "")

/-- Consume exactly n ASCII digits from the front of a character list,
returning the remainder; models a \d{n} regex fragment. -/
def consumeDigits : Nat → List Char → Option (List Char)
  | 0, cs => some cs
  | _ + 1, [] => none
  | n + 1, c :: cs => if c.isDigit then consumeDigits n cs else none

/-- Consume one literal character from the front of a character list. -/
def consumeLit (c : Char) : List Char → Option (List Char)
  | [] => none
  | c' :: cs => if c' = c then some cs else none

/-- Consume the canonical timestamp pattern
\d{4}-\d{2}-\d{2}T\d{2}-\d{2}-\d{2}-\d{3}Z from the front of a character
list. This sub-pattern is shared by ensureProperConversationId's full-match
test and extractTitleFromFileName's leading group. -/
def consumeTimestamp (cs : List Char) : Option (List Char) := do
  let r ← consumeDigits 4 cs
  let r ← consumeLit '-' r
  let r ← consumeDigits 2 r
  let r ← consumeLit '-' r
  let r ← consumeDigits 2 r
  let r ← consumeLit 'T' r
  let r ← consumeDigits 2 r
  let r ← consumeLit '-' r
  let r ← consumeDigits 2 r
  let r ← consumeLit '-' r
  let r ← consumeDigits 2 r
  let r ← consumeLit '-' r
  let r ← consumeDigits 3 r
  consumeLit 'Z' r

/-- The anchored regex test
^\d{4}-\d{2}-\d{2}T\d{2}-\d{2}-\d{2}-\d{3}Z$ of
ensureProperConversationId: the whole string is the timestamp pattern. -/
def matchesTimestampPattern (s : String) : Bool :=
  match consumeTimestamp s.data with
  | some [] => true
  | _ => false

/-- ensureProperConversationId: return the id unchanged when it matches the
canonical timestamp pattern, otherwise (after a console warning, which has no
semantic content) return the fallback timestamp. -/
def ensureProperConversationId (id fallbackTimestamp : String) : String :=
  if matchesTimestampPattern id then id else fallbackTimestamp

/-- Whitespace as the JavaScript regex class \s sees it for the characters
that can reach the title sanitizer. -/
def isJsSpace (c : Char) : Bool :=
  c = ' ' || c = '\t' || c = '\n' || c = '\r' ||
    c = '\x0b' || c = '\x0c'

/-- Characters kept by the title sanitizer's first step, the character class
[a-zA-Z0-9\s\-_] of getConversationFileName. -/
def allowedTitleChar (c : Char) : Bool :=
  c.isAlpha || c.isDigit || isJsSpace c || c = '-' || c = '_'

/-- The replacement replace(/\s+/g, "_"): every maximal run of whitespace
becomes a single underscore. The flag records whether the previous character
was whitespace. -/
def collapseSpaceRuns : Bool → List Char → List Char
  | _, [] => []
  | prevSpace, c :: rest =>
    if isJsSpace c then
      if prevSpace then collapseSpaceRuns true rest
      else '_' :: collapseSpaceRuns true rest
    else c :: collapseSpaceRuns false rest

/-- The title sanitizer of getConversationFileName: strip characters outside
[a-zA-Z0-9\s\-_], collapse whitespace runs to underscores, lowercase. -/
def cleanTitle (chatTitle : String) : String :=
  String.mk (((collapseSpaceRuns false
    (chatTitle.data.filter allowedTitleChar))).map Char.toLower)

/-- getConversationFileName: embed the sanitized title as
conversation-{id}-{slug}.json when the title is truthy (a non-empty string),
otherwise conversation-{id}.json. -/
def getConversationFileName (logDir conversationId chatTitle : String) :
    String :=
  if chatTitle ≠ "" then
    logDir ++ "/conversation-" ++ conversationId ++ "-" ++
      cleanTitle chatTitle ++ ".json"
  else
    logDir ++ "/conversation-" ++ conversationId ++ ".json"

/-- If pat is a leading segment of cs, return the remainder of cs after it. -/
def takeAfterMatch : List Char → List Char → Option (List Char)
  | [], cs => some cs
  | _ :: _, [] => none
  | p :: ps, c :: cs => if c = p then takeAfterMatch ps cs else none

/-- The regex metacharacter dot without the s flag: any character except a
newline. -/
def dotChar (c : Char) : Bool :=
  c != '\n'

/-- The regex class \w: ASCII letters, digits and underscore. -/
def isWordChar (c : Char) : Bool :=
  c.isAlpha || c.isDigit || c = '_'

/-- The replacement replace(/\b\w/g, toUpperCase): uppercase every word
character at a word boundary, that is, at the start or after a non-word
character. The flag records whether the previous character was a word
character. -/
def titleCaseChars : Bool → List Char → List Char
  | _, [] => []
  | prevWord, c :: rest =>
    (if !prevWord && isWordChar c then c.toUpper else c) ::
      titleCaseChars (isWordChar c) rest

/-- extractTitleFromFileName: match the file name against the anchored regex
^conversation-(timestamp)-(.+)\.json$ and, on success, return the title
group with underscores turned back into spaces and each word title-cased.
The greedy group (.+) together with the end anchor forces the title group to
be everything strictly between the timestamp's trailing hyphen and the final
".json", so the regex matches exactly when that segment is non-empty,
newline-free, and followed by ".json". The title group stage is split out
as titleGroupOf. -/
def titleGroupOf : List Char → Option String
  | '-' :: rest =>
    let n := rest.length
    if 6 ≤ n ∧ rest.drop (n - 5) = ".json".data ∧
        (rest.take (n - 5)).all dotChar then
      some (String.mk (titleCaseChars false
        ((rest.take (n - 5)).map fun c => if c = '_' then ' ' else c)))
    else none
  | _ => none

/-- extractTitleFromFileName, assembled from its anchored stages. -/
def extractTitleFromFileName (fileName : String) : Option String :=
  (takeAfterMatch "conversation-".data fileName.data).bind fun afterTag =>
    (consumeTimestamp afterTag).bind titleGroupOf

/-- Filesystem model for the store-naming functions: an association list from
paths to file contents. -/
def FileSys : Type :=
  List (String × String)

/-- The content stored at a path, if any. -/
def lookupFile (fs : FileSys) (p : String) : Option String :=
  (fs.find? fun e => e.1 = p).map fun e => e.2

/-- fs.existsSync on the filesystem model. -/
def existsSync (fs : FileSys) (p : String) : Bool :=
  (lookupFile fs p).isSome

/-- Remove every binding of a path from the filesystem model. -/
def eraseFile (fs : FileSys) (p : String) : FileSys :=
  fs.filter fun e => e.1 ≠ p

/-- fs.renameSync on the filesystem model: move the content stored at the old
path to the new path. -/
def renameFS (fs : FileSys) (oldP newP : String) : FileSys :=
  match lookupFile fs oldP with
  | some c => (newP, c) :: eraseFile fs oldP
  | none => fs

/-- updateConversationFile: compute the new path from the id and the new
title; rename only when the new path differs from the old, the old path
exists, and nothing exists at the new path, returning the new path; in every
other case, and when the underlying rename throws (the renameOk oracle is
false; the source catches the error and logs it), leave the filesystem
unchanged and return the old path. -/
def updateConversationFile (renameOk : Bool) (fs : FileSys)
    (logDir oldFilePath conversationId newTitle : String) :
    FileSys × String :=
  let newFilePath := getConversationFileName logDir conversationId newTitle
  if oldFilePath ≠ newFilePath ∧ existsSync fs oldFilePath then
    if !existsSync fs newFilePath then
      if renameOk then (renameFS fs oldFilePath newFilePath, newFilePath)
      else (fs, oldFilePath)
    else (fs, oldFilePath)
  else (fs, oldFilePath)

/-- A candidate file of the persistence directory as the catalog sees it: its
name, its modification time, and the outcome of reading and JSON-parsing its
content (none when reading or parsing throws, that is, when the file is
corrupt). -/
structure DirFile where
  name : String
  mtime : Nat
  parsed : Option (List Message)
deriving DecidableEq, Repr

/-- A catalog entry (the source's ConversationMetadata). -/
structure ConvMeta where
  id : String
  timestamp : String
  lastMessage : String
  messageCount : Nat
  fileName : String
  lastModified : Nat
deriving DecidableEq, Repr

/-- JavaScript String.replace with a plain string pattern: replace the first
occurrence of pat (if any) by repl. -/
def replaceFirstList (pat repl : List Char) : List Char → List Char
  | [] =>
    match takeAfterMatch pat [] with
    | some r => repl ++ r
    | none => []
  | c :: rest =>
    match takeAfterMatch pat (c :: rest) with
    | some suffix => repl ++ suffix
    | none => c :: replaceFirstList pat repl rest

/-- The timestamp display field of a catalog entry: strip the first
"conversation-" and ".json", turn every hyphen into a colon, and the first T
into a space, in the source's order. -/
def tsDisplay (fileName : String) : String :=
  String.mk (replaceFirstList "T".data " ".data
    ((replaceFirstList ".json".data []
      (replaceFirstList "conversation-".data [] fileName.data)).map
        fun c => if c = '-' then ':' else c))

/-- JavaScript's substring(0, n) on the character level. -/
def jsSubstring (s : String) (n : Nat) : String :=
  String.mk (s.data.take n)

/-- The preview fallback of a catalog entry: the first 60 characters of the
content of the most recent user message; the empty string is falsy in
JavaScript, so a missing user message or an empty preview both yield
"No messages". -/
def previewOf (content : List Message) : String :=
  match content.reverse.find? fun m => decide (m.role = Role.user) with
  | some m =>
    if jsSubstring m.content 60 = "" then "No messages"
    else jsSubstring m.content 60
  | none => "No messages"

/-- Build one catalog entry from the candidate at the given position of the
capped, sorted list; none when the file fails to parse (the source catches
the error and maps the file to null). The displayId is the string rendering
of index + 1, assigned before unparseable files are filtered out. -/
def mkEntry (index : Nat) (f : DirFile) : Option ConvMeta :=
  match f.parsed with
  | none => none
  | some content =>
    some
      { id := toString (index + 1)
        timestamp := tsDisplay f.name
        lastMessage :=
          match extractTitleFromFileName f.name with
          | some t => if t = "" then previewOf content else t
          | none => previewOf content
        messageCount := content.countP fun m =>
          decide (m.role = Role.user) || decide (m.role = Role.assistant)
        fileName := f.name
        lastModified := f.mtime }

/-- The map-then-filter of listConversations: build an entry for each
candidate, numbering from the given index, and drop the files that failed to
parse. -/
def listLoop : Nat → List DirFile → List ConvMeta
  | _, [] => []
  | i, f :: rest =>
    match mkEntry i f with
    | some e => e :: listLoop (i + 1) rest
    | none => listLoop (i + 1) rest

/-- The name filter of listConversations: conversation-*.json. -/
def convFileFilter (name : String) : Bool :=
  (takeAfterMatch "conversation-".data name.data).isSome &&
    decide (name.data.drop (name.data.length - 5) = ".json".data)

/-- Newest-first comparison on candidate files, the source's comparator
(b.lastModified - a.lastModified). -/
def mtimeGe (a b : DirFile) : Prop :=
  b.mtime ≤ a.mtime

instance : DecidableRel mtimeGe :=
  fun a b => inferInstanceAs (Decidable (b.mtime ≤ a.mtime))

instance : IsTotal DirFile mtimeGe :=
  ⟨fun a b => le_total b.mtime a.mtime⟩

instance : IsTrans DirFile mtimeGe :=
  ⟨fun _ _ _ h h' => le_trans h' h⟩

/-- The candidates the catalog inspects: the files whose name matches
conversation-*.json, sorted newest first (JavaScript's sort is stable, as is
insertion sort), capped at 10. -/
def cappedCandidates (dir : List DirFile) : List DirFile :=
  (List.insertionSort mtimeGe (dir.filter fun f => convFileFilter f.name)).take
    10

/-- listConversations on the directory model. -/
def listConversations (dir : List DirFile) : List ConvMeta :=
  listLoop 0 (cappedCandidates dir)

/-- loadConversation: read and parse the named file, returning the parsed
message list; any read or parse error is caught, logged, and turned into the
empty list. -/
def loadConversation (dir : List DirFile) (fileName : String) :
    List Message :=
  match dir.find? fun f => decide (f.name = fileName) with
  | some f =>
    match f.parsed with
    | some content => content
    | none => []
  | none => []

/-- The session-loop state the messageCount invariant speaks about. -/
structure SessState where
  history : List Message
  knownIds : List String
  messageCount : Nat
deriving Repr

/-- The initial system message of a fresh session. Its content plays no role
in any claim and is abbreviated here; what matters is that the source
attaches an anthropic cacheControl marker to it. -/
def initialSystemMessage : Message :=
  { role := Role.system
    content := "Hi! I'm your friendly personal assistant with full computer access!"
    id := none
    cacheHint := true }

/-- The state of a fresh (non-resumed) session before the first turn. -/
def freshSession : SessState :=
  { history := [initialSystemMessage], knownIds := [], messageCount := 0 }

/-- One turn of the session loop, restricted to the fields of SessState: the
special commands exit, save and history leave history and messageCount
untouched; otherwise the user message is pushed and messageCount
incremented, the streamed finalMessages batch is merged with the cache flag
set, and messageCount is incremented by the number of assistant messages in
the batch (the source counts the batch, not the messages actually
appended). -/
def jsToLowerCase (s : String) : String :=
  String.mk (s.data.map Char.toLower)

def doTurn (s : SessState) (userInput : String)
    (finalMessages : List Message) : SessState :=
  if jsToLowerCase userInput = "exit" ∨ jsToLowerCase userInput = "save" ∨
      jsToLowerCase userInput = "history" then s
  else
    let hist1 := s.history ++
      [{ role := Role.user, content := userInput, id := none,
         cacheHint := false }]
    let merged := appendFinalMessages hist1 finalMessages s.knownIds true
    { history := merged.1
      knownIds := merged.2
      messageCount := s.messageCount + 1 +
        (finalMessages.countP fun m => decide (m.role = Role.assistant)) }

/-- The number of history entries whose role is user or assistant. -/
def countUA (history : List Message) : Nat :=
  history.countP fun m =>
    decide (m.role = Role.user) || decide (m.role = Role.assistant)

/-- C8: shouldUpdateTitle returns true iff messageCount is positive,
messageCount is a multiple of titleInterval, this is not the first user
input, and the current title is non-empty; in particular it is true at
messageCount = titleInterval (with the other conditions met) and false at
messageCount = 0. -/
theorem shouldUpdateTitle_spec :
    (∀ mc ti f t, shouldUpdateTitle mc ti f t = true ↔
      (0 < mc ∧ mc % ti = 0 ∧ f = false ∧ t ≠ "")) ∧
    (∀ ti t, 0 < ti → t ≠ "" → shouldUpdateTitle ti ti false t = true) ∧
    (∀ ti f t, shouldUpdateTitle 0 ti f t = false) := by
  refine ⟨fun mc ti f t => ?_, fun ti t hti ht => ?_, fun ti f t => ?_⟩
  · simp [shouldUpdateTitle, and_assoc, Bool.not_eq_true']
  · simp [shouldUpdateTitle, Nat.mod_self, ht, hti]
  · simp [shouldUpdateTitle]

/-- Witness for C8 at concrete boundary inputs. -/
theorem shouldUpdateTitle_spec_witness :
    0 < 4 ∧ "chat" ≠ "" ∧ shouldUpdateTitle 4 4 false "chat" = true ∧
      shouldUpdateTitle 0 4 true "chat" = false :=
  ⟨by decide, by decide,
    shouldUpdateTitle_spec.2.1 4 "chat" (by decide) (by decide),
    shouldUpdateTitle_spec.2.2 4 true "chat"⟩

/-- C9: loadConversation never throws; it returns the parsed message
sequence when the file is present and parses, and the empty sequence when
the file is missing or its content fails to parse. -/
theorem loadConversation_spec (dir : List DirFile) (fileName : String) :
    (∀ f, (dir.find? fun g => decide (g.name = fileName)) = some f →
      (∀ content, f.parsed = some content →
        loadConversation dir fileName = content) ∧
      (f.parsed = none → loadConversation dir fileName = [])) ∧
    ((dir.find? fun g => decide (g.name = fileName)) = none →
      loadConversation dir fileName = []) := by
  constructor
  · intro f hf
    constructor
    · intro content hc
      simp [loadConversation, hf, hc]
    · intro hc
      simp [loadConversation, hf, hc]
  · intro hf
    simp [loadConversation, hf]

/-- A sample user message for concrete instances. -/
def sampleUserMsg : Message :=
  { role := Role.user, content := "hi", id := none, cacheHint := false }

/-- A parseable conversation file for concrete instances. -/
def goodFileA : DirFile :=
  { name := "conversation-a.json", mtime := 1, parsed := some [sampleUserMsg] }

/-- A corrupt conversation file for concrete instances. -/
def corruptFileB : DirFile :=
  { name := "conversation-b.json", mtime := 2, parsed := none }

/-- Witness for C9: a directory with one good and one corrupt file. -/
theorem loadConversation_spec_witness :
    loadConversation [goodFileA, corruptFileB] "conversation-a.json" =
      [sampleUserMsg] ∧
    loadConversation [corruptFileB] "conversation-b.json" = [] ∧
    loadConversation [] "conversation-c.json" = [] := by
  refine ⟨?_, ?_, ?_⟩
  · exact ((loadConversation_spec _ "conversation-a.json").1 goodFileA
      (by decide)).1 _ rfl
  · exact ((loadConversation_spec _ "conversation-b.json").1 corruptFileB
      (by decide)).2 rfl
  · exact (loadConversation_spec [] "conversation-c.json").2 rfl

/-- A list of ASCII digit characters. -/
def DigitList (l : List Char) : Prop :=
  ∀ c ∈ l, c.isDigit = true

/-- A character list of the canonical timestamp shape described by the spec:
a 4-digit year, 2-digit month, 2-digit day, literal T, 2-digit hour, minute
and second, 3-digit millisecond and literal Z, separated by hyphens. -/
def CanonicalTimestampChars (cs : List Char) : Prop :=
  ∃ y mo d h mi sec ms : List Char,
    y.length = 4 ∧ mo.length = 2 ∧ d.length = 2 ∧ h.length = 2 ∧
    mi.length = 2 ∧ sec.length = 2 ∧ ms.length = 3 ∧
    DigitList y ∧ DigitList mo ∧ DigitList d ∧ DigitList h ∧
    DigitList mi ∧ DigitList sec ∧ DigitList ms ∧
    cs = y ++ '-' :: (mo ++ '-' :: (d ++ 'T' :: (h ++ '-' ::
      (mi ++ '-' :: (sec ++ '-' :: (ms ++ ['Z']))))))

/-- A string of the canonical timestamp shape. -/
def CanonicalTimestamp (s : String) : Prop :=
  CanonicalTimestampChars s.data

theorem consumeDigits_eq_some (n : Nat) :
    ∀ cs r : List Char, consumeDigits n cs = some r →
      ∃ ds, ds.length = n ∧ DigitList ds ∧ cs = ds ++ r := by
  induction n with
  | zero =>
    intro cs r h
    simp [consumeDigits] at h
    exact ⟨[], rfl, by simp [DigitList], by simp [h]⟩
  | succ n ih =>
    intro cs r h
    match cs with
    | [] => simp [consumeDigits] at h
    | c :: cs' =>
      by_cases hc : c.isDigit
      · simp [consumeDigits, hc] at h
        obtain ⟨ds, hlen, hdig, heq⟩ := ih cs' r h
        refine ⟨c :: ds, by simp [hlen], ?_, by simp [heq]⟩
        intro x hx
        rcases List.mem_cons.mp hx with h1 | h2
        · exact h1 ▸ hc
        · exact hdig x h2
      · simp [consumeDigits, hc] at h

theorem consumeDigits_append (n : Nat) :
    ∀ ds r : List Char, ds.length = n → DigitList ds →
      consumeDigits n (ds ++ r) = some r := by
  induction n with
  | zero =>
    intro ds r hlen _
    have : ds = [] := List.length_eq_zero.mp hlen
    simp [this, consumeDigits]
  | succ n ih =>
    intro ds r hlen hdig
    match ds with
    | [] => simp at hlen
    | c :: ds' =>
      have hc : c.isDigit = true := hdig c (by simp)
      have hlen' : ds'.length = n := by simpa using hlen
      have hdig' : DigitList ds' := fun x hx => hdig x (List.mem_cons_of_mem _ hx)
      simpa [consumeDigits, hc] using ih ds' r hlen' hdig'

theorem consumeLit_eq_some (c : Char) :
    ∀ cs r : List Char, consumeLit c cs = some r → cs = c :: r := by
  intro cs r h
  match cs with
  | [] => simp [consumeLit] at h
  | c' :: cs' =>
    by_cases hc : c' = c
    · simp [consumeLit, hc] at h
      simp [hc, h]
    · simp [consumeLit, hc] at h

theorem consumeTimestamp_complete (cs tail : List Char)
    (h : CanonicalTimestampChars cs) :
    consumeTimestamp (cs ++ tail) = some tail := by
  obtain ⟨y, mo, d, hh, mi, sec, ms, ly, lmo, ld, lh, lmi, lsec, lms,
    dy, dmo, dd, dh, dmi, dsec, dms, heq⟩ := h
  subst heq
  simp [consumeTimestamp, consumeLit,
    consumeDigits_append 4 y, consumeDigits_append 2 mo,
    consumeDigits_append 2 d, consumeDigits_append 2 hh,
    consumeDigits_append 2 mi, consumeDigits_append 2 sec,
    consumeDigits_append 3 ms,
    ly, lmo, ld, lh, lmi, lsec, lms, dy, dmo, dd, dh, dmi, dsec, dms]

theorem consumeTimestamp_sound (cs : List Char)
    (h : consumeTimestamp cs = some []) : CanonicalTimestampChars cs := by
  simp only [consumeTimestamp, Option.bind_eq_bind, Option.bind_eq_some] at h
  obtain ⟨r1, h1, r2, h2, r3, h3, r4, h4, r5, h5, r6, h6, r7, h7, r8, h8,
    r9, h9, r10, h10, r11, h11, r12, h12, r13, h13, h14⟩ := h
  obtain ⟨y, ly, dy, hy⟩ := consumeDigits_eq_some 4 cs r1 h1
  have e2 := consumeLit_eq_some '-' r1 r2 h2
  obtain ⟨mo, lmo, dmo, hmo⟩ := consumeDigits_eq_some 2 r2 r3 h3
  have e4 := consumeLit_eq_some '-' r3 r4 h4
  obtain ⟨d, ld, dd, hd⟩ := consumeDigits_eq_some 2 r4 r5 h5
  have e6 := consumeLit_eq_some 'T' r5 r6 h6
  obtain ⟨hh, lh, dh, hhh⟩ := consumeDigits_eq_some 2 r6 r7 h7
  have e8 := consumeLit_eq_some '-' r7 r8 h8
  obtain ⟨mi, lmi, dmi, hmi⟩ := consumeDigits_eq_some 2 r8 r9 h9
  have e10 := consumeLit_eq_some '-' r9 r10 h10
  obtain ⟨sec, lsec, dsec, hsec⟩ := consumeDigits_eq_some 2 r10 r11 h11
  have e12 := consumeLit_eq_some '-' r11 r12 h12
  obtain ⟨ms, lms, dms, hms⟩ := consumeDigits_eq_some 3 r12 r13 h13
  have e14 := consumeLit_eq_some 'Z' r13 [] h14
  refine ⟨y, mo, d, hh, mi, sec, ms, ly, lmo, ld, lh, lmi, lsec, lms,
    dy, dmo, dd, dh, dmi, dsec, dms, ?_⟩
  subst hy e2 hmo e4 hd e6 hhh e8 hmi e10 hsec e12 hms e14
  simp

/-- The regex test of ensureProperConversationId accepts exactly the strings
of the canonical timestamp shape. -/
theorem matchesTimestampPattern_iff (s : String) :
    matchesTimestampPattern s = true ↔ CanonicalTimestamp s := by
  constructor
  · intro h
    unfold matchesTimestampPattern at h
    rcases hts : consumeTimestamp s.data with _ | r
    · rw [hts] at h
      simp at h
    · rw [hts] at h
      match r, h with
      | [], _ => exact consumeTimestamp_sound s.data hts
  · intro h
    unfold matchesTimestampPattern
    have h2 := consumeTimestamp_complete s.data [] h
    rw [List.append_nil] at h2
    rw [h2]

/-- C5: ensureProperConversationId is total and never fails: an id of the
canonical timestamp shape is returned unchanged, and any other id is
replaced by the fallback. -/
theorem ensureProperConversationId_spec (id fallbackTimestamp : String) :
    (CanonicalTimestamp id →
      ensureProperConversationId id fallbackTimestamp = id) ∧
    (¬ CanonicalTimestamp id →
      ensureProperConversationId id fallbackTimestamp = fallbackTimestamp) := by
  constructor
  · intro h
    simp [ensureProperConversationId, (matchesTimestampPattern_iff id).mpr h]
  · intro h
    have : matchesTimestampPattern id = false := by
      rcases hb : matchesTimestampPattern id
      · rfl
      · exact absurd ((matchesTimestampPattern_iff id).mp hb) h
    simp [ensureProperConversationId, this]

/-- Witness for C5: a concrete canonical timestamp is kept, a concrete
malformed id falls back. -/
theorem ensureProperConversationId_spec_witness :
    CanonicalTimestamp "2024-01-01T00-00-00-000Z" ∧
    ensureProperConversationId "2024-01-01T00-00-00-000Z" "FB" =
      "2024-01-01T00-00-00-000Z" ∧
    ¬ CanonicalTimestamp "bad-id" ∧
    ensureProperConversationId "bad-id" "FB" = "FB" := by
  have hc : CanonicalTimestamp "2024-01-01T00-00-00-000Z" :=
    (matchesTimestampPattern_iff _).mp (by decide)
  have hn : ¬ CanonicalTimestamp "bad-id" := by
    intro h
    have := (matchesTimestampPattern_iff "bad-id").mpr h
    simp [matchesTimestampPattern, consumeTimestamp, consumeDigits,
      consumeLit] at this
  exact ⟨hc, (ensureProperConversationId_spec _ "FB").1 hc, hn,
    (ensureProperConversationId_spec _ "FB").2 hn⟩

theorem lookupFile_renameFS (fs : FileSys) (oldP newP c : String)
    (hc : lookupFile fs oldP = some c) :
    lookupFile (renameFS fs oldP newP) newP = some c := by
  unfold renameFS
  rw [hc]
  simp [lookupFile]

/-- C4: updateConversationFile never overwrites an existing file: when the
new path equals the old, the old path is missing, the new path is occupied,
or the underlying rename throws, the filesystem is unchanged and the old
path is returned; otherwise the file is renamed and the new path is
returned. In every case the returned path still holds the content that was
stored at the old path. -/
theorem updateConversationFile_spec (renameOk : Bool) (fs : FileSys)
    (logDir oldFilePath conversationId newTitle newFilePath : String)
    (hnew : newFilePath =
      getConversationFileName logDir conversationId newTitle)
    (result : FileSys × String)
    (hres : result = updateConversationFile renameOk fs logDir oldFilePath
      conversationId newTitle) :
    (existsSync fs newFilePath = true → result = (fs, oldFilePath)) ∧
    (newFilePath = oldFilePath → result = (fs, oldFilePath)) ∧
    (existsSync fs oldFilePath = false → result = (fs, oldFilePath)) ∧
    (renameOk = false → result = (fs, oldFilePath)) ∧
    (oldFilePath ≠ newFilePath → existsSync fs oldFilePath = true →
      existsSync fs newFilePath = false → renameOk = true →
      result = (renameFS fs oldFilePath newFilePath, newFilePath)) ∧
    lookupFile result.1 result.2 = lookupFile fs oldFilePath := by
  subst hnew
  simp only [updateConversationFile] at hres
  split_ifs at hres with h1 h2 h3
  · obtain ⟨hne, hold⟩ := h1
    have hnewF :
        existsSync fs (getConversationFileName logDir conversationId
          newTitle) = false := by
      simpa using h2
    have holdSome : (lookupFile fs oldFilePath).isSome = true := hold
    obtain ⟨c, hc⟩ := Option.isSome_iff_exists.mp holdSome
    refine ⟨?_, ?_, ?_, ?_, ?_, ?_⟩
    · intro h
      rw [hnewF] at h
      cases h
    · intro h
      exact absurd h.symm hne
    · intro h
      rw [hold] at h
      cases h
    · intro h
      rw [h] at h3
      cases h3
    · intro _ _ _ _
      exact hres
    · rw [hres, hc]
      exact lookupFile_renameFS fs _ _ c hc
  · refine ⟨fun _ => hres, fun _ => hres, fun _ => hres, fun _ => hres,
      ?_, by rw [hres]⟩
    intro _ _ _ hrok
    exact absurd hrok h3
  · refine ⟨fun _ => hres, fun _ => hres, fun _ => hres, fun _ => hres,
      ?_, by rw [hres]⟩
    intro _ _ hnewF _
    have : (!existsSync fs (getConversationFileName logDir conversationId
        newTitle)) = true := by
      simp [hnewF]
    exact absurd this h2
  · refine ⟨fun _ => hres, fun _ => hres, fun _ => hres, fun _ => hres,
      ?_, by rw [hres]⟩
    intro hne hold _ _
    exact absurd ⟨hne, hold⟩ h1

/-- A filesystem holding both the untitled file and its titled rename
target. -/
def fsBoth : FileSys :=
  [("logs/conversation-X.json", "a"),
   ("logs/conversation-X-my_title.json", "b")]

/-- A filesystem holding only the untitled file. -/
def fsOne : FileSys :=
  [("logs/conversation-X.json", "a")]

/-- Witness for C4: with the destination occupied the filesystem is
untouched and the old path returned; with it free the file is renamed. -/
theorem updateConversationFile_spec_witness :
    existsSync fsBoth "logs/conversation-X-my_title.json" = true ∧
    updateConversationFile true fsBoth "logs" "logs/conversation-X.json" "X"
      "My Title" = (fsBoth, "logs/conversation-X.json") ∧
    updateConversationFile true fsOne "logs" "logs/conversation-X.json" "X"
      "My Title" =
      (renameFS fsOne "logs/conversation-X.json"
        "logs/conversation-X-my_title.json",
       "logs/conversation-X-my_title.json") := by
  refine ⟨by decide, ?_, ?_⟩
  · exact (updateConversationFile_spec true fsBoth "logs"
      "logs/conversation-X.json" "X" "My Title" _ rfl _ rfl).1 (by decide)
  · have h := (updateConversationFile_spec true fsOne "logs"
      "logs/conversation-X.json" "X" "My Title" _ rfl _ rfl).2.2.2.2.1
      (by decide) (by decide) (by decide) rfl
    simpa using h

theorem takeAfterMatch_append (pat rest : List Char) :
    takeAfterMatch pat (pat ++ rest) = some rest := by
  induction pat with
  | nil => rfl
  | cons p ps ih => simp [takeAfterMatch, ih]

theorem cleanTitle_eq_empty (title : String)
    (hbad : ∀ c ∈ title.data, allowedTitleChar c = false) :
    cleanTitle title = "" := by
  unfold cleanTitle
  have h : title.data.filter allowedTitleChar = [] := by
    rw [List.filter_eq_nil_iff]
    intro a ha
    simp [hbad a ha]
  rw [h]
  rfl

/-- C10: a non-empty title made only of characters outside the sanitizer's
class yields the degenerate file name conversation-{id}-.json with an empty
slug and a trailing hyphen, and extractTitleFromFileName rejects that name
(the regex title group needs at least one character before ".json"), so the
round-trip loses the title entirely. -/
theorem degenerate_title_roundtrip (logDir id title : String)
    (hid : matchesTimestampPattern id = true) (ht : title ≠ "")
    (hbad : ∀ c ∈ title.data, allowedTitleChar c = false) :
    getConversationFileName logDir id title =
      logDir ++ "/conversation-" ++ id ++ "-.json" ∧
    extractTitleFromFileName ("conversation-" ++ id ++ "-.json") = none := by
  constructor
  · unfold getConversationFileName
    rw [if_pos ht, cleanTitle_eq_empty title hbad]
    apply String.ext
    show logDir.data ++ "/conversation-".data ++ id.data ++ "-".data ++
      "".data ++ ".json".data = _
    simp
  · have hcanon : CanonicalTimestampChars id.data :=
      (matchesTimestampPattern_iff id).mp hid
    have hdata : ("conversation-" ++ id ++ "-.json").data =
        "conversation-".data ++ (id.data ++ "-.json".data) := by
      show "conversation-".data ++ id.data ++ "-.json".data = _
      simp
    unfold extractTitleFromFileName
    rw [hdata, takeAfterMatch_append]
    have hts : consumeTimestamp (id.data ++ "-.json".data) =
        some ("-.json".data) := consumeTimestamp_complete _ _ hcanon
    simp only [Option.some_bind]
    rw [hts]
    simp only [Option.some_bind]
    rfl

/-- Witness for C10 at a concrete canonical id and an all-symbols title. -/
theorem degenerate_title_roundtrip_witness :
    matchesTimestampPattern "2024-01-01T00-00-00-000Z" = true ∧
    "@@@" ≠ "" ∧
    (∀ c ∈ "@@@".data, allowedTitleChar c = false) ∧
    getConversationFileName "logs" "2024-01-01T00-00-00-000Z" "@@@" =
      "logs" ++ "/conversation-" ++ "2024-01-01T00-00-00-000Z" ++
        "-.json" ∧
    extractTitleFromFileName
      ("conversation-" ++ "2024-01-01T00-00-00-000Z" ++ "-.json") = none := by
  have h := degenerate_title_roundtrip "logs" "2024-01-01T00-00-00-000Z"
    "@@@" (by decide) (by decide) (by decide)
  exact ⟨by decide, by decide, by decide, h.1, h.2⟩

/-- An assistant message with the given id, hint-free, as streamed model
output produces. -/
def mkAssistant (i : String) : Message :=
  { role := Role.assistant, content := "ok", id := some i, cacheHint := false }

/-- knownIds only grows, and after the loop it contains every id the loop
could ever consume from the batch: the ids of assistant or tool messages
with a truthy id. -/
theorem loop_ids (cache : Bool) (inc : List Message) :
    ∀ (hist : List Message) (known : List String) (s : String),
      (s ∈ known ∨ ∃ m ∈ inc, m.id = some s ∧
        (m.role = Role.assistant ∨ m.role = Role.tool) ∧ s ≠ "") →
      s ∈ (appendFinalMessagesLoop cache inc (hist, known)).2 := by
  induction inc with
  | nil =>
    intro hist known s hs
    rcases hs with hk | ⟨m, hm, _⟩
    · simpa [appendFinalMessagesLoop] using hk
    · cases hm
  | cons m0 rest ih =>
    intro hist known s hs
    rcases hmid : m0.id with _ | mid
    · simp only [appendFinalMessagesLoop, hmid]
      apply ih
      rcases hs with hk | ⟨m, hm, hid, hrest⟩
      · exact Or.inl hk
      · rcases List.mem_cons.mp hm with rfl | hm'
        · rw [hmid] at hid
          cases hid
        · exact Or.inr ⟨m, hm', hid, hrest⟩
    · by_cases he : (m0.role = Role.assistant ∨ m0.role = Role.tool) ∧
          mid ≠ ""
      · by_cases hk : mid ∈ known
        · simp only [appendFinalMessagesLoop, hmid, if_pos he, if_pos hk]
          apply ih
          rcases hs with hs | ⟨m, hm, hid, hrole, hne⟩
          · exact Or.inl hs
          · rcases List.mem_cons.mp hm with rfl | hm'
            · rw [hmid] at hid
              cases hid
              exact Or.inl hk
            · exact Or.inr ⟨m, hm', hid, hrole, hne⟩
        · simp only [appendFinalMessagesLoop, hmid, if_pos he, if_neg hk]
          apply ih
          rcases hs with hs | ⟨m, hm, hid, hrole, hne⟩
          · exact Or.inl (List.mem_cons_of_mem _ hs)
          · rcases List.mem_cons.mp hm with rfl | hm'
            · rw [hmid] at hid
              cases hid
              exact Or.inl (List.mem_cons_self _ _)
            · exact Or.inr ⟨m, hm', hid, hrole, hne⟩
      · simp only [appendFinalMessagesLoop, hmid, if_neg he]
        apply ih
        rcases hs with hs | ⟨m, hm, hid, hrole, hne⟩
        · exact Or.inl hs
        · rcases List.mem_cons.mp hm with rfl | hm'
          · rw [hmid] at hid
            cases hid
            exact absurd ⟨hrole, hne⟩ he
          · exact Or.inr ⟨m, hm', hid, hrole, hne⟩

/-- When every id the loop could consume is already known, the loop is a
no-op. -/
theorem loop_noop (cache : Bool) (inc : List Message) :
    ∀ (hist : List Message) (known : List String),
      (∀ m ∈ inc, ∀ s, m.id = some s →
        (m.role = Role.assistant ∨ m.role = Role.tool) → s ≠ "" →
        s ∈ known) →
      appendFinalMessagesLoop cache inc (hist, known) = (hist, known) := by
  induction inc with
  | nil =>
    intro hist known _
    rfl
  | cons m0 rest ih =>
    intro hist known hall
    have hall' : ∀ m ∈ rest, ∀ s, m.id = some s →
        (m.role = Role.assistant ∨ m.role = Role.tool) → s ≠ "" →
        s ∈ known :=
      fun m hm => hall m (List.mem_cons_of_mem _ hm)
    rcases hmid : m0.id with _ | mid
    · simp only [appendFinalMessagesLoop, hmid]
      exact ih hist known hall'
    · by_cases he : (m0.role = Role.assistant ∨ m0.role = Role.tool) ∧
          mid ≠ ""
      · have hk : mid ∈ known :=
          hall m0 (List.mem_cons_self _ _) mid hmid he.1 he.2
        simp only [appendFinalMessagesLoop, hmid, if_pos he, if_pos hk]
        exact ih hist known hall'
      · simp only [appendFinalMessagesLoop, hmid, if_neg he]
        exact ih hist known hall'

/-- C2 (amended): a second appendFinalMessages call with the same incoming
batch and the shared knownIds appends nothing and leaves knownIds unchanged,
but it reruns the cache-hint rotation: the resulting history is the first
call's history with the cache hints of its assistant messages stripped (in
particular the hint the first call attached to the final assistant message
is removed), not the identical history. -/
theorem merge_idempotent (hist inc : List Message) (known : List String) :
    (appendFinalMessages (appendFinalMessages hist inc known true).1 inc
        (appendFinalMessages hist inc known true).2 true).1 =
      stripAssistantHints (appendFinalMessages hist inc known true).1 ∧
    (appendFinalMessages (appendFinalMessages hist inc known true).1 inc
        (appendFinalMessages hist inc known true).2 true).2 =
      (appendFinalMessages hist inc known true).2 := by
  have hall : ∀ m ∈ inc, ∀ s, m.id = some s →
      (m.role = Role.assistant ∨ m.role = Role.tool) → s ≠ "" →
      s ∈ (appendFinalMessages hist inc known true).2 := by
    intro m hm s hs hrole hne
    exact loop_ids true inc _ known s (Or.inr ⟨m, hm, hs, hrole, hne⟩)
  have h2 : appendFinalMessagesLoop true inc
      (stripAssistantHints (appendFinalMessages hist inc known true).1,
        (appendFinalMessages hist inc known true).2) =
      (stripAssistantHints (appendFinalMessages hist inc known true).1,
        (appendFinalMessages hist inc known true).2) :=
    loop_noop true inc _ _ hall
  constructor
  · show (appendFinalMessagesLoop true inc _).1 = _
    rw [if_pos rfl, h2]
  · show (appendFinalMessagesLoop true inc _).2 = _
    rw [if_pos rfl, h2]

/-- Counterexample for C2 as stated: merging the same one-assistant batch
twice does not yield an identical history, because the second call strips
the cache hint the first call attached. -/
theorem merge_idempotent_cex :
    (appendFinalMessages (appendFinalMessages [] [mkAssistant "a1"] [] true).1
        [mkAssistant "a1"]
        (appendFinalMessages [] [mkAssistant "a1"] [] true).2 true).1 ≠
      (appendFinalMessages [] [mkAssistant "a1"] [] true).1 := by
  decide

/-- No message of the list except possibly its last element is an assistant
message carrying a cache hint. -/
def NoStaleAssistantHint (l : List Message) : Prop :=
  ∀ m ∈ l.dropLast, ¬(m.role = Role.assistant ∧ m.cacheHint = true)

theorem strip_clean (hist : List Message) :
    ∀ m ∈ stripAssistantHints hist,
      ¬(m.role = Role.assistant ∧ m.cacheHint = true) := by
  intro m hm
  obtain ⟨m0, _, rfl⟩ := List.mem_map.mp hm
  by_cases h : m0.role = Role.assistant
  · simp [h]
  · simp [h]

theorem loop_cons_fresh (cache : Bool) (m0 : Message) (mid : String)
    (rest hist : List Message) (known : List String)
    (hmid : m0.id = some mid)
    (he : (m0.role = Role.assistant ∨ m0.role = Role.tool) ∧ mid ≠ "")
    (hk : mid ∉ known) :
    appendFinalMessagesLoop cache (m0 :: rest) (hist, known) =
      appendFinalMessagesLoop cache rest
        (hist ++ [if cache ∧ rest.isEmpty ∧ m0.role = Role.assistant
          then { m0 with cacheHint := true } else m0], mid :: known) := by
  simp only [appendFinalMessagesLoop, hmid]
  rw [if_pos he, if_neg hk]

theorem loop_cons_skip (cache : Bool) (m0 : Message)
    (rest hist : List Message) (known : List String)
    (hskip : m0.id = none ∨
      ∃ mid, m0.id = some mid ∧
        (¬((m0.role = Role.assistant ∨ m0.role = Role.tool) ∧ mid ≠ "") ∨
          mid ∈ known)) :
    appendFinalMessagesLoop cache (m0 :: rest) (hist, known) =
      appendFinalMessagesLoop cache rest (hist, known) := by
  rcases hskip with hmid | ⟨mid, hmid, hrest⟩
  · simp only [appendFinalMessagesLoop, hmid]
  · rcases hrest with hne | hk
    · simp only [appendFinalMessagesLoop, hmid]
      rw [if_neg hne]
    · by_cases he : (m0.role = Role.assistant ∨ m0.role = Role.tool) ∧
          mid ≠ ""
      · simp only [appendFinalMessagesLoop, hmid]
        rw [if_pos he, if_pos hk]
      · simp only [appendFinalMessagesLoop, hmid]
        rw [if_neg he]

theorem loop_dropLast_clean (inc : List Message) :
    ∀ (hist : List Message) (known : List String),
      (∀ m ∈ hist, ¬(m.role = Role.assistant ∧ m.cacheHint = true)) →
      (∀ m ∈ inc, m.cacheHint = false) →
      ∀ m ∈ (appendFinalMessagesLoop true inc (hist, known)).1.dropLast,
        ¬(m.role = Role.assistant ∧ m.cacheHint = true) := by
  induction inc with
  | nil =>
    intro hist known hh _ m hm
    exact hh m ((List.dropLast_sublist _).subset hm)
  | cons m0 rest ih =>
    intro hist known hh hinc m hm
    have hinc' : ∀ m ∈ rest, m.cacheHint = false :=
      fun x hx => hinc x (List.mem_cons_of_mem _ hx)
    rcases hmid : m0.id with _ | mid
    · rw [loop_cons_skip true m0 rest hist known (Or.inl hmid)] at hm
      exact ih hist known hh hinc' m hm
    · by_cases he : (m0.role = Role.assistant ∨ m0.role = Role.tool) ∧
          mid ≠ ""
      · by_cases hk : mid ∈ known
        · rw [loop_cons_skip true m0 rest hist known
            (Or.inr ⟨mid, hmid, Or.inr hk⟩)] at hm
          exact ih hist known hh hinc' m hm
        · rw [loop_cons_fresh true m0 mid rest hist known hmid he hk] at hm
          cases rest with
          | nil =>
            simp only [appendFinalMessagesLoop, List.dropLast_concat] at hm
            exact hh m hm
          | cons r rs =>
            simp only [List.isEmpty_cons, Bool.false_eq_true, false_and,
              and_false, if_false] at hm
            have hh' : ∀ x ∈ hist ++ [m0],
                ¬(x.role = Role.assistant ∧ x.cacheHint = true) := by
              intro x hx
              rcases List.mem_append.mp hx with hx' | hx'
              · exact hh x hx'
              · have hxm : x = m0 := by simpa using hx'
                rw [hxm, hinc m0 (List.mem_cons_self _ _)]
                simp
            exact ih (hist ++ [m0]) (mid :: known) hh' hinc' m hm
      · rw [loop_cons_skip true m0 rest hist known
          (Or.inr ⟨mid, hmid, Or.inl he⟩)] at hm
        exact ih hist known hh hinc' m hm

/-- One appendFinalMessages call with the cache flag set yields a history in
which only the final element can be a hinted assistant message, for any
starting history, provided the batch carries no pre-existing hints. -/
theorem appendFinalMessages_clean (hist inc : List Message)
    (known : List String) (hinc : ∀ m ∈ inc, m.cacheHint = false) :
    NoStaleAssistantHint (appendFinalMessages hist inc known true).1 := by
  intro m hm
  unfold appendFinalMessages at hm
  rw [if_pos rfl] at hm
  exact loop_dropLast_clean inc (stripAssistantHints hist) known
    (strip_clean hist) hinc m hm

theorem mergeAll_clean :
    ∀ (batches : List (List Message)), batches ≠ [] →
      (∀ b ∈ batches, ∀ m ∈ b, m.cacheHint = false) →
      ∀ (hist : List Message) (known : List String),
        NoStaleAssistantHint (mergeAll batches hist known).1 := by
  intro batches
  induction batches with
  | nil =>
    intro hne
    exact absurd rfl hne
  | cons b bs ih =>
    intro _ hclean hist known
    cases bs with
    | nil =>
      have : mergeAll [b] hist known =
          appendFinalMessages hist b known true := by
        simp [mergeAll]
      rw [this]
      exact appendFinalMessages_clean hist b known
        (hclean b (List.mem_cons_self _ _))
    | cons b2 bs2 =>
      have : mergeAll (b :: b2 :: bs2) hist known =
          mergeAll (b2 :: bs2) (appendFinalMessages hist b known true).1
            (appendFinalMessages hist b known true).2 := by
        simp [mergeAll]
      rw [this]
      exact ih (by simp)
        (fun x hx => hclean x (List.mem_cons_of_mem _ hx)) _ _

theorem countP_le_one_of_noStale (l : List Message)
    (h : NoStaleAssistantHint l) :
    (l.countP fun m => decide (m.role = Role.assistant) && m.cacheHint) ≤
      1 := by
  rcases List.eq_nil_or_concat l with rfl | ⟨L, b, rfl⟩
  · simp
  · rw [List.concat_eq_append, List.countP_append]
    have hL : (L.countP fun m =>
        decide (m.role = Role.assistant) && m.cacheHint) = 0 := by
      rw [List.countP_eq_zero]
      intro a ha
      have := h a (by simpa [List.dropLast_concat] using ha)
      simp only [Bool.and_eq_true, decide_eq_true_iff]
      intro hcontra
      exact this ⟨hcontra.1, hcontra.2⟩
    rw [hL]
    simp [List.countP_cons]
    split_ifs <;> simp

theorem hinted_is_last_assistant (l : List Message)
    (h : NoStaleAssistantHint l) :
    ∀ i j (hi : i < l.length) (hj : j < l.length),
      (l.get ⟨i, hi⟩).role = Role.assistant →
      (l.get ⟨i, hi⟩).cacheHint = true →
      (l.get ⟨j, hj⟩).role = Role.assistant → j ≤ i := by
  intro i j hi hj hrole hhint _
  by_contra hji
  push_neg at hji
  have hi' : i < l.dropLast.length := by
    rw [List.length_dropLast]
    omega
  have hget : l.dropLast.get ⟨i, hi'⟩ = l.get ⟨i, hi⟩ := by
    simp [List.get_eq_getElem, List.getElem_dropLast]
  have hmem : l.get ⟨i, hi⟩ ∈ l.dropLast := by
    rw [← hget]
    exact List.get_mem _ _ _
  exact h _ hmem ⟨hrole, hhint⟩

theorem stripAssistantHints_length (l : List Message) :
    (stripAssistantHints l).length = l.length := by
  simp [stripAssistantHints]

theorem stripAssistantHints_get_of_ne (l : List Message) (i : Nat)
    (hi : i < l.length) (hi2 : i < (stripAssistantHints l).length)
    (h : (l.get ⟨i, hi⟩).role ≠ Role.assistant) :
    (stripAssistantHints l).get ⟨i, hi2⟩ = l.get ⟨i, hi⟩ := by
  simp only [stripAssistantHints, List.get_eq_getElem, List.getElem_map]
  rw [if_neg]
  intro hcontra
  exact h (by simpa [List.get_eq_getElem] using hcontra)

/-- C1 (amended): after any non-empty sequence of appendFinalMessages calls
with the cache flag set whose incoming batches carry no pre-existing cache
hints, at most one assistant message of the history carries a cache hint,
and a hinted assistant message has no assistant message after it (it is the
last assistant message); moreover the rotation step preserves the length of
the history and leaves every non-assistant message, the system message
included, untouched. -/
theorem cacheHint_invariant (batches : List (List Message))
    (hist : List Message) (known : List String)
    (result : List Message × List String)
    (hres : result = mergeAll batches hist known)
    (hne : batches ≠ [])
    (hclean : ∀ b ∈ batches, ∀ m ∈ b, m.cacheHint = false) :
    ((result.1.countP fun m =>
        decide (m.role = Role.assistant) && m.cacheHint) ≤ 1) ∧
    (∀ i j (hi : i < result.1.length) (hj : j < result.1.length),
      (result.1.get ⟨i, hi⟩).role = Role.assistant →
      (result.1.get ⟨i, hi⟩).cacheHint = true →
      (result.1.get ⟨j, hj⟩).role = Role.assistant → j ≤ i) ∧
    (∀ hist' : List Message,
      (stripAssistantHints hist').length = hist'.length ∧
      ∀ i (hi : i < hist'.length) (hi2 : i < (stripAssistantHints hist').length),
        (hist'.get ⟨i, hi⟩).role ≠ Role.assistant →
          (stripAssistantHints hist').get ⟨i, hi2⟩ = hist'.get ⟨i, hi⟩) := by
  subst hres
  have h := mergeAll_clean batches hne hclean hist known
  refine ⟨countP_le_one_of_noStale _ h, hinted_is_last_assistant _ h,
    fun hist' => ⟨stripAssistantHints_length hist', ?_⟩⟩
  intro i hi hi2 hne'
  exact stripAssistantHints_get_of_ne hist' i hi hi2 hne'

/-- Witness for C1 at a concrete session shape: a hinted system message, one
merge of a fresh assistant batch. -/
theorem cacheHint_invariant_witness :
    ([[mkAssistant "a1"]] ≠ ([] : List (List Message))) ∧
    (∀ b ∈ [[mkAssistant "a1"]], ∀ m ∈ b, m.cacheHint = false) ∧
    ((mergeAll [[mkAssistant "a1"]] [initialSystemMessage] []).1.countP
      fun m => decide (m.role = Role.assistant) && m.cacheHint) ≤ 1 := by
  refine ⟨by simp, by decide, ?_⟩
  exact (cacheHint_invariant [[mkAssistant "a1"]] [initialSystemMessage] []
    _ rfl (by simp) (by decide)).1

/-- Counterexample for C1 as stated: one merge into the fresh session
history (whose system message carries the cache hint the source attaches to
it) leaves two messages carrying cache hints, because the rotation never
strips the system message's hint. -/
theorem cacheHint_invariant_cex :
    ((appendFinalMessages [initialSystemMessage] [mkAssistant "a1"] []
        true).1.countP fun m => m.cacheHint) = 2 ∧
    ¬(((appendFinalMessages [initialSystemMessage] [mkAssistant "a1"] []
        true).1.countP fun m => m.cacheHint) ≤ 1) := by
  constructor
  · decide
  · decide

/-- An assistant message without an id, as the C3 analysis needs. -/
def assistantNoId : Message :=
  { role := Role.assistant, content := "ok", id := none, cacheHint := false }

/-- C3 evidence: on the first turn of a fresh session whose streamed batch
holds one assistant message without an id, the session loop counts the
assistant message (messageCount becomes 2) even though the reconciler drops
it, so the history holds only one user-or-assistant entry; the claimed
equality messageCount = countUA history fails. The same divergence occurs
when the batch's assistant ids are already in knownIds. -/
theorem messageCount_diverges :
    (doTurn freshSession "hi" [assistantNoId]).messageCount = 2 ∧
    countUA (doTurn freshSession "hi" [assistantNoId]).history = 1 ∧
    (doTurn freshSession "hi" [assistantNoId]).messageCount ≠
      countUA (doTurn freshSession "hi" [assistantNoId]).history := by
  refine ⟨by decide, by decide, by decide⟩

theorem mkEntry_isSome_iff (i : Nat) (f : DirFile) :
    (mkEntry i f).isSome = f.parsed.isSome := by
  cases hp : f.parsed <;> simp [mkEntry, hp]

theorem mkEntry_id (i : Nat) (f : DirFile) (e : ConvMeta)
    (h : mkEntry i f = some e) : e.id = toString (i + 1) := by
  cases hp : f.parsed with
  | none =>
    simp [mkEntry, hp] at h
  | some c =>
    simp only [mkEntry, hp, Option.some.injEq] at h
    rw [← h]

theorem mkEntry_lastModified (i : Nat) (f : DirFile) (e : ConvMeta)
    (h : mkEntry i f = some e) : e.lastModified = f.mtime := by
  cases hp : f.parsed with
  | none =>
    simp [mkEntry, hp] at h
  | some c =>
    simp only [mkEntry, hp, Option.some.injEq] at h
    rw [← h]

theorem listLoop_length_countP (l : List DirFile) :
    ∀ i, (listLoop i l).length = l.countP fun f => f.parsed.isSome := by
  induction l with
  | nil =>
    intro i
    rfl
  | cons f rest ih =>
    intro i
    rcases hm : mkEntry i f with _ | e
    · have hps : f.parsed.isSome = false := by
        have hiff := mkEntry_isSome_iff i f
        rw [hm] at hiff
        simpa using hiff.symm
      simp only [listLoop, hm]
      rw [ih (i + 1), List.countP_cons]
      simp [hps]
    · have hps : f.parsed.isSome = true := by
        have hiff := mkEntry_isSome_iff i f
        rw [hm] at hiff
        simpa using hiff.symm
      simp only [listLoop, hm]
      rw [List.length_cons, ih (i + 1), List.countP_cons]
      simp [hps]

theorem listLoop_mtimes_sublist (l : List DirFile) :
    ∀ i, ((listLoop i l).map fun e => e.lastModified).Sublist
      (l.map fun f => f.mtime) := by
  induction l with
  | nil =>
    intro i
    simp [listLoop]
  | cons f rest ih =>
    intro i
    rcases hm : mkEntry i f with _ | e
    · simp only [listLoop, hm, List.map_cons]
      exact (ih (i + 1)).cons _
    · simp only [listLoop, hm, List.map_cons]
      rw [mkEntry_lastModified i f e hm]
      exact (ih (i + 1)).cons₂ _

theorem listLoop_get_all_parse (l : List DirFile) :
    ∀ (i k : Nat), (∀ f ∈ l, f.parsed.isSome = true) →
      ∀ hk : k < (listLoop i l).length,
        ((listLoop i l).get ⟨k, hk⟩).id = toString (i + k + 1) := by
  induction l with
  | nil =>
    intro i k _ hk
    simp [listLoop] at hk
  | cons f rest ih =>
    intro i k hall hk
    have hps : f.parsed.isSome = true := hall f (List.mem_cons_self _ _)
    obtain ⟨c, hc⟩ := Option.isSome_iff_exists.mp hps
    have hm : (mkEntry i f).isSome = true := by
      rw [mkEntry_isSome_iff, hps]
    obtain ⟨e, he⟩ := Option.isSome_iff_exists.mp hm
    have hstep : listLoop i (f :: rest) = e :: listLoop (i + 1) rest := by
      simp only [listLoop, he]
    rcases k with _ | k'
    · simp only [List.get_eq_getElem, hstep, List.getElem_cons_zero]
      simpa using mkEntry_id i f e he
    · have hk' : k' < (listLoop (i + 1) rest).length := by
        have hk2 := hk
        rw [hstep] at hk2
        simpa using hk2
      simp only [List.get_eq_getElem, hstep, List.getElem_cons_succ]
      have hrec := ih (i + 1) k'
        (fun x hx => hall x (List.mem_cons_of_mem _ hx)) hk'
      simp only [List.get_eq_getElem] at hrec
      rw [hrec]
      congr 1
      omega

/-- C6 (amended): displayId is the string rendering of the 1-based position
among the capped, newest-first candidates before unparseable files are
dropped; when every capped candidate parses (so nothing is dropped), this
coincides with the 1-based position in the returned list. -/
theorem listConversations_displayId (dir : List DirFile)
    (hall : ∀ f ∈ cappedCandidates dir, f.parsed.isSome = true) :
    ∀ k (hk : k < (listConversations dir).length),
      ((listConversations dir).get ⟨k, hk⟩).id = toString (k + 1) := by
  intro k hk
  have h := listLoop_get_all_parse (cappedCandidates dir) 0 k hall hk
  simpa using h

/-- A directory whose two conversation files both parse. -/
def allParseDir : List DirFile :=
  [⟨"conversation-w1.json", 1, some []⟩, ⟨"conversation-w2.json", 2, some []⟩]

/-- Witness for C6 on a directory where every candidate parses. -/
theorem listConversations_displayId_witness :
    (∀ f ∈ cappedCandidates allParseDir, f.parsed.isSome = true) ∧
    ((listConversations allParseDir).get ⟨0, by decide⟩).id =
      toString (0 + 1) := by
  refine ⟨by decide, ?_⟩
  exact listConversations_displayId allParseDir (by decide) 0 (by decide)

/-- A directory whose newest conversation file is corrupt and whose older
one parses. -/
def corruptNewestDir : List DirFile :=
  [⟨"conversation-good.json", 1, some []⟩,
   ⟨"conversation-corrupt.json", 2, none⟩]

/-- Counterexample for C6 as stated: with the newest file corrupt, the first
(and only) returned entry carries displayId "2", not "1" — the ordinal is
assigned before the corrupt file is dropped. -/
theorem listConversations_displayId_cex :
    ¬(∀ k (hk : k < (listConversations corruptNewestDir).length),
      ((listConversations corruptNewestDir).get ⟨k, hk⟩).id =
        toString (k + 1)) := by
  intro h
  exact absurd (h 0 (by decide)) (by decide)

/-- A directory with five parseable conversation files and one corrupt
one. -/
def fiveGoodOneBadDir : List DirFile :=
  [⟨"conversation-f1.json", 1, some []⟩,
   ⟨"conversation-f2.json", 2, some []⟩,
   ⟨"conversation-f3.json", 3, some []⟩,
   ⟨"conversation-f4.json", 4, some []⟩,
   ⟨"conversation-f5.json", 5, some []⟩,
   ⟨"conversation-bad.json", 6, none⟩]

/-- C7 (amended): every listing has at most 10 entries, is ordered by
non-strictly descending modification time (ties between equal modification
times are possible, so the order is not strictly descending), and drops
exactly the capped candidates that fail to parse; in particular five valid
files and one corrupt one yield exactly five entries. -/
theorem listConversations_spec :
    (∀ dir : List DirFile, (listConversations dir).length ≤ 10) ∧
    (∀ dir : List DirFile, List.Sorted (fun a b : Nat => b ≤ a)
      ((listConversations dir).map fun e => e.lastModified)) ∧
    (∀ dir : List DirFile, (listConversations dir).length =
      (cappedCandidates dir).countP fun f => f.parsed.isSome) ∧
    (listConversations fiveGoodOneBadDir).length = 5 := by
  have hlen : ∀ dir : List DirFile, (listConversations dir).length =
      (cappedCandidates dir).countP fun f => f.parsed.isSome :=
    fun dir => listLoop_length_countP (cappedCandidates dir) 0
  refine ⟨?_, ?_, hlen, by decide⟩
  · intro dir
    rw [hlen dir]
    calc ((cappedCandidates dir).countP fun f => f.parsed.isSome) ≤
        (cappedCandidates dir).length := List.countP_le_length _
      _ ≤ 10 := by
        unfold cappedCandidates
        rw [List.length_take]
        exact min_le_left _ _
  · intro dir
    have hsorted : List.Sorted mtimeGe (cappedCandidates dir) := by
      unfold cappedCandidates
      exact List.Pairwise.sublist (List.take_sublist _ _)
        (List.sorted_insertionSort mtimeGe _)
    have hmap : List.Pairwise (fun a b : Nat => b ≤ a)
        ((cappedCandidates dir).map fun f => f.mtime) := by
      rw [List.pairwise_map]
      exact hsorted
    exact List.Pairwise.sublist (listLoop_mtimes_sublist _ 0) hmap

/-- A directory with two parseable files sharing one modification time. -/
def equalMtimeDir : List DirFile :=
  [⟨"conversation-e1.json", 5, some []⟩, ⟨"conversation-e2.json", 5, some []⟩]

/-- Counterexample for C7's strictness: two files with equal modification
times both appear, so consecutive entries are not strictly descending. -/
theorem listConversations_strict_cex :
    ((listConversations equalMtimeDir).map fun e => e.lastModified) =
      [5, 5] ∧
    ¬ List.Chain' (fun a b : Nat => b < a)
      ((listConversations equalMtimeDir).map fun e => e.lastModified) := by
  have hmap : ((listConversations equalMtimeDir).map
      fun e => e.lastModified) = [5, 5] := by
    decide
  refine ⟨hmap, ?_⟩
  rw [hmap]
  intro hch
  have h2 := (List.chain'_cons.mp hch).1
  omega
